import Mathlib

/-
Verification of the Ledger Store of the student expense tracker
(src/ExpenseScreen.js): a shallow embedding of the screen's state and of the
operations `loadExpenses`, `addExpense`, `deleteExpense`, `getCategoryTotals`
and the `setup` effect, together with proofs of the testable properties of
the specification.

Modelling conventions:
- JavaScript strings are `List Char` (`Str`); `String.prototype.trim` and
  `parseFloat` are modelled from the ECMAScript semantics the code relies on.
- JavaScript numbers are modelled exactly: a value is NaN, +Infinity,
  -Infinity or a rational (`JSNum`).  Double rounding is not modelled; all
  arithmetic the claims speak about is exact.
- The SQLite table is a list of rows kept in insertion order together with
  the AUTOINCREMENT counter (`DB`).  `SELECT * FROM expenses ORDER BY id
  DESC` is an explicit sort by descending id.
- The plain-object accumulator of `getCategoryTotals` is an association list
  in property-creation order.  `Object.entries` enumeration order (canonical
  array-index keys first, ascending, then creation order) is modelled, and so
  are the two prototype-chain pitfalls the code is exposed to: assignment to
  the key "__proto__" creates no own property, and keys naming inherited
  `Object.prototype` methods start from a truthy inherited function value, so
  `+=` produces a string.  The concrete text of such a string is
  implementation defined; it is modelled by the contentless marker `TVal.s`,
  and no theorem depends on its content, only on it not being a number.
-/

namespace ExpenseTracker

/-- JavaScript strings, as lists of characters. -/
abbrev Str := List Char

/-- Conversion from Lean string literals to `Str`. -/
def str (s : String) : Str := s.data

/-- A JavaScript number: NaN, an infinity, or an exact finite value. -/
inductive JSNum where
  | nan : JSNum
  | posInf : JSNum
  | negInf : JSNum
  | num (q : ℚ) : JSNum
deriving DecidableEq

/-- The JavaScript `isNaN` test on a number. -/
def JSNum.isNaN : JSNum → Bool
  | .nan => true
  | _ => false

/-- Whether a JavaScript number is a finite number. -/
def JSNum.isNum : JSNum → Bool
  | .num _ => true
  | _ => false

/-- The finite value of a JavaScript number (0 for NaN and the infinities). -/
def JSNum.toQ : JSNum → ℚ
  | .num q => q
  | _ => 0

/-- Falsiness of a JavaScript number: NaN and 0 are falsy. -/
def JSNum.falsy : JSNum → Bool
  | .nan => true
  | .num q => decide (q = 0)
  | _ => false

/-- JavaScript addition on numbers. -/
def JSNum.add : JSNum → JSNum → JSNum
  | .nan, _ => .nan
  | _, .nan => .nan
  | .posInf, .negInf => .nan
  | .negInf, .posInf => .nan
  | .posInf, _ => .posInf
  | _, .posInf => .posInf
  | .negInf, _ => .negInf
  | _, .negInf => .negInf
  | .num a, .num b => .num (a + b)

/-- The JavaScript comparison `a <= b` on numbers (false whenever NaN is involved). -/
def jsLe : JSNum → JSNum → Bool
  | .nan, _ => false
  | _, .nan => false
  | .negInf, _ => true
  | _, .negInf => false
  | _, .posInf => true
  | .posInf, _ => false
  | .num a, .num b => decide (a ≤ b)

/-- The characters treated as whitespace by `String.prototype.trim` and by
`parseFloat` (ECMAScript WhiteSpace and LineTerminator). -/
def jsWhitespaceChar (c : Char) : Bool :=
  c = ' ' || c = '\t' || c = '\n' || c = '\r' || c = Char.ofNat 11 ||
    c = Char.ofNat 12 || c = Char.ofNat 160 || c = Char.ofNat 65279 ||
    c = Char.ofNat 8232 || c = Char.ofNat 8233

/-- JavaScript `String.prototype.trim`: strip whitespace from both ends. -/
def jsTrim (s : Str) : Str :=
  ((s.dropWhile jsWhitespaceChar).reverse.dropWhile jsWhitespaceChar).reverse

/-- Value of a list of decimal digit characters. -/
def digitsToNat (l : List Char) : ℕ :=
  l.foldl (fun a c => 10 * a + (c.toNat - 48)) 0

/-- The optional exponent part following the mantissa in `parseFloat`:
`e`/`E`, an optional sign, and at least one digit; ignored when absent or
malformed (in which case the exponent is 0). -/
def parseExponent (l : List Char) : ℤ :=
  match l with
  | c :: rest =>
    if c = 'e' || c = 'E' then
      match rest with
      | '-' :: ds =>
        if (ds.takeWhile Char.isDigit).isEmpty then 0
        else -(digitsToNat (ds.takeWhile Char.isDigit) : ℤ)
      | '+' :: ds =>
        if (ds.takeWhile Char.isDigit).isEmpty then 0
        else (digitsToNat (ds.takeWhile Char.isDigit) : ℤ)
      | ds =>
        if (ds.takeWhile Char.isDigit).isEmpty then 0
        else (digitsToNat (ds.takeWhile Char.isDigit) : ℤ)
    else 0
  | [] => 0

/-- Apply a decimal exponent to an exact mantissa. -/
def applyExp (q : ℚ) (e : ℤ) : ℚ :=
  if 0 ≤ e then q * (10 : ℚ) ^ e.toNat else q / (10 : ℚ) ^ (-e).toNat

/-- Longest unsigned decimal-literal prefix accepted by `parseFloat`:
digits, an optional fraction, and an optional exponent; `none` when no
decimal literal starts the input. -/
def parseUnsigned (l : List Char) : Option ℚ :=
  let intDigits := l.takeWhile Char.isDigit
  let rest := l.dropWhile Char.isDigit
  if intDigits.isEmpty then
    match rest with
    | '.' :: rest2 =>
      let fracDigits := rest2.takeWhile Char.isDigit
      if fracDigits.isEmpty then none
      else
        some (applyExp ((digitsToNat fracDigits : ℚ) / (10 : ℚ) ^ fracDigits.length)
          (parseExponent (rest2.dropWhile Char.isDigit)))
    | _ => none
  else
    match rest with
    | '.' :: rest2 =>
      let fracDigits := rest2.takeWhile Char.isDigit
      some (applyExp ((digitsToNat intDigits : ℚ) +
          (digitsToNat fracDigits : ℚ) / (10 : ℚ) ^ fracDigits.length)
        (parseExponent (rest2.dropWhile Char.isDigit)))
    | _ => some (applyExp (digitsToNat intDigits : ℚ) (parseExponent rest))

/-- Whether the input starts with the literal `Infinity`. -/
def startsWithInfinity (l : List Char) : Bool :=
  match l with
  | 'I' :: 'n' :: 'f' :: 'i' :: 'n' :: 'i' :: 't' :: 'y' :: _ => true
  | _ => false

/-- The body of `parseFloat` after the optional sign has been consumed. -/
def parseUnsignedNum (l : List Char) (neg : Bool) : JSNum :=
  if startsWithInfinity l then (if neg then JSNum.negInf else JSNum.posInf)
  else
    match parseUnsigned l with
    | some q => JSNum.num (if neg then -q else q)
    | none => JSNum.nan

/-- ECMAScript `parseFloat`: skip leading whitespace, an optional sign, then
the longest `Infinity` or decimal-literal prefix; NaN when there is none. -/
def parseFloat (s : Str) : JSNum :=
  match s.dropWhile jsWhitespaceChar with
  | '+' :: rest => parseUnsignedNum rest false
  | '-' :: rest => parseUnsignedNum rest true
  | l => parseUnsignedNum l false

/-- One row of the `expenses` table. -/
structure ExpenseRow where
  id : ℕ
  amount : JSNum
  category : Str
  note : Option Str
deriving DecidableEq

/-- The SQLite database: whether the `expenses` table exists, its rows in
insertion order, and the AUTOINCREMENT counter (strictly above every id ever
assigned, so ids are never reused). -/
structure DB where
  hasTable : Bool
  rows : List ExpenseRow
  nextId : ℕ
deriving DecidableEq

/-- The screen state: the database plus the React state variables
`expenses`, `amount`, `category`, `note`. -/
structure UIState where
  db : DB
  expenses : List ExpenseRow
  amount : Str
  category : Str
  note : Str
deriving DecidableEq

/-- Insert an element into a list sorted by `le` (the comparator-respecting
insertion used to model an SQL ORDER BY). -/
def insertBy (le : α → α → Bool) (a : α) : List α → List α
  | [] => [a]
  | b :: l => if le a b then a :: b :: l else b :: insertBy le a l

/-- Insertion sort by the comparator `le`. -/
def sortBy (le : α → α → Bool) : List α → List α
  | [] => []
  | a :: l => insertBy le a (sortBy le l)

/-- `SELECT * FROM expenses ORDER BY id DESC`: the rows sorted by strictly
descending id. -/
def listAll (db : DB) : List ExpenseRow :=
  sortBy (fun a b => decide (b.id ≤ a.id)) db.rows

/-- `loadExpenses`: re-read all rows into the `expenses` state. -/
def loadExpenses (s : UIState) : UIState :=
  { s with expenses := listAll s.db }

/-- The row the INSERT statement of `addExpense` persists: the next id, the
parsed amount, the trimmed category, and the trimmed note or NULL when the
trimmed note is empty (`trimmedNote || null`). -/
def newRow (s : UIState) : ExpenseRow :=
  { id := s.db.nextId
    amount := parseFloat s.amount
    category := jsTrim s.category
    note := if (jsTrim s.note).isEmpty then none else some (jsTrim s.note) }

/-- Effect of the INSERT on the database: append the new row, advance the
AUTOINCREMENT counter. -/
def dbInsert (s : UIState) : DB :=
  { s.db with rows := s.db.rows ++ [newRow s], nextId := s.db.nextId + 1 }

/-- `addExpense`: parse the amount, reject NaN or non-positive values, trim
category and note, reject an empty trimmed category, otherwise insert the
new row, clear the three input fields, and reload the list. -/
def addExpense (s : UIState) : UIState :=
  let amountNumber := parseFloat s.amount
  if amountNumber.isNaN || jsLe amountNumber (JSNum.num 0) then s
  else
    let trimmedCategory := jsTrim s.category
    let trimmedNote := jsTrim s.note
    if trimmedCategory.isEmpty then s
    else
      loadExpenses
        { s with
          db := { s.db with
            rows := s.db.rows ++
              [{ id := s.db.nextId
                 amount := amountNumber
                 category := trimmedCategory
                 note := if trimmedNote.isEmpty then none else some trimmedNote }]
            nextId := s.db.nextId + 1 }
          amount := []
          category := []
          note := [] }

/-- `deleteExpense(id)`: `DELETE FROM expenses WHERE id = ?` then reload. -/
def deleteExpense (s : UIState) (i : ℕ) : UIState :=
  loadExpenses
    { s with db := { s.db with rows := s.db.rows.filter (fun r => decide (r.id ≠ i)) } }

/-- The `setup` effect: `CREATE TABLE IF NOT EXISTS expenses ...` followed by
`loadExpenses`.  A fresh table is empty and AUTOINCREMENT starts at 1. -/
def setup (s : UIState) : UIState :=
  loadExpenses
    { s with db := if s.db.hasTable then s.db else { hasTable := true, rows := [], nextId := 1 } }

/-- The acceptance condition of `addExpense`: the parsed amount is neither
NaN nor `<= 0` and the trimmed category is non-empty. -/
def accepts (s : UIState) : Bool :=
  !(parseFloat s.amount).isNaN && !(jsLe (parseFloat s.amount) (JSNum.num 0)) &&
    !(jsTrim s.category).isEmpty

/-- A user interaction with the screen: editing one of the three text
inputs, pressing Add Expense, or pressing a delete button. -/
inductive Action where
  | typeAmount (t : Str)
  | typeCategory (t : Str)
  | typeNote (t : Str)
  | pressAdd
  | pressDelete (i : ℕ)

/-- Effect of one user interaction on the screen state. -/
def applyAction (s : UIState) : Action → UIState
  | .typeAmount t => { s with amount := t }
  | .typeCategory t => { s with category := t }
  | .typeNote t => { s with note := t }
  | .pressAdd => addExpense s
  | .pressDelete i => deleteExpense s i

/-- Replay a list of user interactions from a state. -/
def runFrom (s : UIState) : List Action → UIState
  | [] => s
  | a :: acts => runFrom (applyAction s a) acts

/-- The ids assigned by one interaction (the AUTOINCREMENT value consumed by
an accepted add; nothing otherwise). -/
def newIds (s : UIState) : Action → List ℕ
  | .pressAdd => if accepts s then [s.db.nextId] else []
  | _ => []

/-- All ids assigned while replaying a list of interactions, including ids
of records deleted later. -/
def assignedFrom (s : UIState) : List Action → List ℕ
  | [] => []
  | a :: acts => newIds s a ++ assignedFrom (applyAction s a) acts

/-- The screen state at application start over a persisted database: blank
inputs, then the `setup` effect. -/
def initUI (d : DB) : UIState :=
  setup { db := d, expenses := [], amount := [], category := [], note := [] }

/-- Rows are in strictly ascending id order. -/
def ascIds : List ExpenseRow → Bool
  | [] => true
  | [_] => true
  | a :: b :: l => decide (a.id < b.id) && ascIds (b :: l)

/-- Rows are in strictly descending id order. -/
def descIds : List ExpenseRow → Bool
  | [] => true
  | [_] => true
  | a :: b :: l => decide (b.id < a.id) && descIds (b :: l)

/-- Invariant of every database this screen produces: rows are stored in
strictly ascending id order, every id is below the AUTOINCREMENT counter,
and no stored note is the empty string. -/
def Inv (db : DB) : Prop :=
  ascIds db.rows = true ∧ (∀ r ∈ db.rows, r.id < db.nextId) ∧
    ∀ r ∈ db.rows, r.note ≠ some []

/-- A value stored in the `totals` plain object of `getCategoryTotals`:
either a number, or a string produced by `+=` on an inherited
`Object.prototype` function (its implementation-defined text is not
modelled; every such string is non-empty and truthy). -/
inductive TVal where
  | n (v : JSNum) : TVal
  | s : TVal
deriving DecidableEq

/-- Whether a totals value is a finite number. -/
def TVal.isFin : TVal → Bool
  | .n (.num _) => true
  | _ => false

/-- The finite value of a totals value (0 otherwise). -/
def TVal.toQ : TVal → ℚ
  | .n v => v.toQ
  | .s => 0

/-- The statement `if (!totals[category]) totals[category] = 0;
totals[category] += amount` applied to an existing own value: a falsy number
is first reset to 0; a string stays a string under `+=`. -/
def tAdd (v : TVal) (amt : JSNum) : TVal :=
  match v with
  | .s => .s
  | .n u => .n (JSNum.add (if u.falsy then JSNum.num 0 else u) amt)

/-- Own-property lookup in the insertion-ordered association list that
models the `totals` object. -/
def lookupStr : List (Str × TVal) → Str → Option TVal
  | [], _ => none
  | p :: l, c => if p.1 = c then some p.2 else lookupStr l c

/-- The enumerable own properties of `Object.prototype` that shadow a
missing key of a plain object: reading such a key yields a truthy inherited
function, so `+=` stores a string. -/
def protoKeys : List Str :=
  [str ("constructor"), str ("hasOwnProperty"), str ("isPrototypeOf"),
   str ("propertyIsEnumerable"), str ("toLocaleString"), str ("toString"),
   str ("valueOf")]

/-- One iteration of the `expenses.forEach` accumulator body on the
`totals` object, for key `cat` and addend `amt`.  When the key is already an
own property, `+=` updates it in place.  Otherwise reading `totals[cat]`
consults the prototype chain: for `"__proto__"` the inherited accessor is
truthy and the subsequent assignment through its setter creates no own
property (the amount is silently dropped); for an `Object.prototype` method
name the inherited function is truthy and `+=` creates an own string
property; for any other key `!totals[cat]` holds, the key is initialised to
0 and then incremented. -/
def jsAddEntry (totals : List (Str × TVal)) (cat : Str) (amt : JSNum) :
    List (Str × TVal) :=
  match lookupStr totals cat with
  | some _ => totals.map (fun p => if p.1 = cat then (p.1, tAdd p.2 amt) else p)
  | none =>
    if cat = str ("__proto__") then totals
    else if cat ∈ protoKeys then totals ++ [(cat, TVal.s)]
    else totals ++ [(cat, TVal.n (JSNum.add (JSNum.num 0) amt))]

/-- The `forEach` body of `getCategoryTotals`: category defaulted to
`"Other"` when falsy (empty), amount defaulted to 0 when falsy. -/
def accumulate (totals : List (Str × TVal)) (exp : ExpenseRow) :
    List (Str × TVal) :=
  jsAddEntry totals (if exp.category.isEmpty then str ("Other") else exp.category)
    (if (exp.amount).falsy then JSNum.num 0 else exp.amount)

/-- Whether a string is a canonical array-index property key (digits only,
no leading zero except "0", value below 2^32 - 1).  Such keys are enumerated
first and in ascending numeric order by `Object.entries`. -/
def isArrayIndexStr (s : Str) : Bool :=
  !s.isEmpty && s.all Char.isDigit && (s = ['0'] || s.head? ≠ some '0') &&
    decide (digitsToNat s < 4294967295)

/-- `Object.entries` enumeration order on the own properties of a plain
object: canonical array-index keys first in ascending numeric order, then
the remaining keys in property-creation order. -/
def objEntries (l : List (Str × TVal)) : List (Str × TVal) :=
  sortBy (fun p q => decide (digitsToNat p.1 ≤ digitsToNat q.1))
      (l.filter (fun p => isArrayIndexStr p.1)) ++
    l.filter (fun p => !isArrayIndexStr p.1)

/-- The `COLORS.pieChartColors` palette. -/
def pieChartColors : List Str :=
  [str ("#FF6B6B"), str ("#4ECDC4"), str ("#45B7D1"), str ("#FFA07A"),
   str ("#98D8C8"), str ("#F7DC6F"), str ("#BB8FCE"), str ("#85C1E2")]

/-- One element of the array `getCategoryTotals` returns for the pie
chart. -/
structure PieDatum where
  name : Str
  amount : TVal
  color : Str
  legendFontColor : Str
  legendFontSize : ℕ
deriving DecidableEq

/-- `getCategoryTotals`: fold the records into the `totals` object, then map
`Object.entries` to pie-chart data, colors cycling through the palette. -/
def getCategoryTotals (expenses : List ExpenseRow) : List PieDatum :=
  let totals := expenses.foldl accumulate []
  (objEntries totals).enum.map (fun p =>
    { name := p.2.1
      amount := p.2.2
      color := pieChartColors.getD (p.1 % pieChartColors.length) []
      legendFontColor := str ("#1B0000")
      legendFontSize := 14 })

/-- The effective grouping category of a record: `"Other"` when the stored
category is empty. -/
def effCat (r : ExpenseRow) : Str :=
  if r.category.isEmpty then str ("Other") else r.category

/-- A grouping key that hits one of the prototype-chain pitfalls: the
`"__proto__"` key or an `Object.prototype` method name. -/
def badKey (c : Str) : Bool :=
  c = str ("__proto__") || c ∈ protoKeys

/-- Specification-side sum of the amounts of the records in one group. -/
def specSum (rs : List ExpenseRow) (c : Str) : ℚ :=
  ((rs.filter (fun r => decide (effCat r = c))).map (fun r => (r.amount).toQ)).sum

/-- Specification-side first-seen order: the distinct elements of a list in
order of first occurrence. -/
def firstSeen (l : List Str) : List Str :=
  l.foldl (fun acc c => if c ∈ acc then acc else acc ++ [c]) []

/-- Specification-side rendering of `Object.entries` key order: canonical
array-index keys first, ascending, then the rest in the given order. -/
def objOrder (l : List Str) : List Str :=
  sortBy (fun a b => decide (digitsToNat a ≤ digitsToNat b))
      (l.filter isArrayIndexStr) ++
    l.filter (fun c => !isArrayIndexStr c)

/-- The keys of the association list modelling the `totals` object. -/
def keysOf (l : List (Str × TVal)) : List Str := l.map Prod.fst

/-- All values of a totals association list are finite numbers. -/
def AllFin (t : List (Str × TVal)) : Prop := ∀ p ∈ t, TVal.isFin p.2 = true

/-- Sum of the numeric values of a totals association list. -/
def sumVals (t : List (Str × TVal)) : ℚ := (t.map (fun p => TVal.toQ p.2)).sum

instance (db : DB) : Decidable (Inv db) := by
  unfold Inv
  infer_instance

/-- An empty database whose schema exists. -/
def exDB : DB := { hasTable := true, rows := [], nextId := 1 }

/-- A database holding two records. -/
def exDB2 : DB :=
  { hasTable := true
    rows := [{ id := 1, amount := JSNum.num 10, category := str ("Food"), note := none },
             { id := 2, amount := JSNum.num 3, category := str ("Books"),
               note := some (str ("used")) }]
    nextId := 3 }

/-- A screen state over `exDB2` with blank inputs. -/
def exS2 : UIState :=
  { db := exDB2, expenses := [], amount := [], category := [], note := [] }

/-- A session: one accepted add, a delete, then inputs for a second add. -/
def wActs : List Action :=
  [Action.typeAmount (str ("12.50")), Action.typeCategory (str (" Food ")),
   Action.typeNote (str ("lunch")), Action.pressAdd, Action.pressDelete 1,
   Action.typeAmount (str ("7")), Action.typeCategory (str ("Books")),
   Action.typeNote []]

/-- A screen state about to submit the negative amount "-5". -/
def wC2 : UIState :=
  { db := exDB, expenses := [], amount := str ("-5"), category := str ("Food"), note := [] }

/-- A screen state about to submit the non-numeric amount "abc". -/
def wC9 : UIState :=
  { db := exDB, expenses := [], amount := str ("abc"), category := str ("Food"), note := [] }

/-- A screen state about to submit the amount "Infinity". -/
def cexC2 : UIState :=
  { db := exDB, expenses := [], amount := str ("Infinity"), category := str ("Food"),
    note := [] }

/-- A screen state about to submit a valid expense with paddable inputs. -/
def wAdd : UIState :=
  { db := exDB, expenses := [], amount := str ("12.50"), category := str (" Food "),
    note := str (" lunch ") }

/-- An in-memory record sequence exercising grouping, the Other fallback and
summation. -/
def rsEx : List ExpenseRow :=
  [{ id := 1, amount := JSNum.num 10, category := str ("Food"), note := none },
   { id := 2, amount := JSNum.num 5, category := str ("Food"), note := none },
   { id := 3, amount := JSNum.num (25/2), category := [], note := none }]

theorem insertBy_perm (le : α → α → Bool) (a : α) (l : List α) :
    List.Perm (insertBy le a l) (a :: l) := by
  induction l with
  | nil => simp [insertBy]
  | cons b l ih =>
    simp only [insertBy]
    by_cases h : le a b = true
    · simp [h]
    · rw [if_neg h]
      exact (ih.cons b).trans (List.Perm.swap a b l)

theorem sortBy_perm (le : α → α → Bool) (l : List α) : List.Perm (sortBy le l) l := by
  induction l with
  | nil => exact List.Perm.refl []
  | cons a l ih => exact (insertBy_perm le a (sortBy le l)).trans (ih.cons a)

theorem insertBy_eq_append (le : α → α → Bool) (a : α) (l : List α)
    (h : ∀ b ∈ l, le a b = false) : insertBy le a l = l ++ [a] := by
  induction l with
  | nil => rfl
  | cons b l ih =>
    simp only [insertBy]
    rw [if_neg (by simp [h b (List.mem_cons_self b l)]),
      ih (fun x hx => h x (List.mem_cons_of_mem b hx))]
    rfl

theorem ascIds_tail {a : ExpenseRow} {l : List ExpenseRow}
    (h : ascIds (a :: l) = true) : ascIds l = true := by
  cases l with
  | nil => rfl
  | cons b l =>
    simp only [ascIds, Bool.and_eq_true] at h
    exact h.2

theorem ascIds_head_lt {a : ExpenseRow} {l : List ExpenseRow}
    (h : ascIds (a :: l) = true) : ∀ x ∈ l, a.id < x.id := by
  induction l generalizing a with
  | nil => intro x hx; cases hx
  | cons b l ih =>
    intro x hx
    simp only [ascIds, Bool.and_eq_true, decide_eq_true_eq] at h
    rcases List.mem_cons.mp hx with rfl | hx'
    · exact h.1
    · exact lt_trans h.1 (ih h.2 x hx')

theorem ascIds_cons {a : ExpenseRow} {l : List ExpenseRow} (hl : ascIds l = true)
    (h : ∀ x ∈ l, a.id < x.id) : ascIds (a :: l) = true := by
  cases l with
  | nil => rfl
  | cons b l =>
    simp only [ascIds, Bool.and_eq_true, decide_eq_true_eq]
    exact ⟨h b (List.mem_cons_self b l), hl⟩

theorem ascIds_append {l : List ExpenseRow} {a : ExpenseRow} (hl : ascIds l = true)
    (h : ∀ x ∈ l, x.id < a.id) : ascIds (l ++ [a]) = true := by
  induction l with
  | nil => rfl
  | cons b l ih =>
    refine ascIds_cons (ih (ascIds_tail hl) fun x hx => h x (List.mem_cons_of_mem b hx)) ?_
    intro x hx
    rcases List.mem_append.mp hx with hx' | hx'
    · exact ascIds_head_lt hl x hx'
    · rcases List.mem_singleton.mp hx' with rfl
      exact h b (List.mem_cons_self b l)

theorem descIds_tail {a : ExpenseRow} {l : List ExpenseRow}
    (h : descIds (a :: l) = true) : descIds l = true := by
  cases l with
  | nil => rfl
  | cons b l =>
    simp only [descIds, Bool.and_eq_true] at h
    exact h.2

theorem descIds_cons {a : ExpenseRow} {l : List ExpenseRow} (hl : descIds l = true)
    (h : ∀ x ∈ l, x.id < a.id) : descIds (a :: l) = true := by
  cases l with
  | nil => rfl
  | cons b l =>
    simp only [descIds, Bool.and_eq_true, decide_eq_true_eq]
    exact ⟨h b (List.mem_cons_self b l), hl⟩

theorem descIds_append {l : List ExpenseRow} {a : ExpenseRow} (hl : descIds l = true)
    (h : ∀ x ∈ l, a.id < x.id) : descIds (l ++ [a]) = true := by
  induction l with
  | nil => rfl
  | cons b l ih =>
    cases l with
    | nil =>
      simp only [List.cons_append, List.nil_append, descIds, Bool.and_eq_true,
        decide_eq_true_eq]
      exact ⟨h b (List.mem_cons_self b []), trivial⟩
    | cons c l =>
      simp only [descIds, Bool.and_eq_true, decide_eq_true_eq] at hl
      simp only [List.cons_append, descIds, Bool.and_eq_true, decide_eq_true_eq]
      exact ⟨hl.1, by
        simpa using ih hl.2 fun x hx => h x (List.mem_cons_of_mem b hx)⟩

theorem descIds_reverse {l : List ExpenseRow} (h : ascIds l = true) :
    descIds l.reverse = true := by
  induction l with
  | nil => rfl
  | cons a l ih =>
    simp only [List.reverse_cons]
    exact descIds_append (ih (ascIds_tail h))
      fun x hx => ascIds_head_lt h x (List.mem_reverse.mp hx)

theorem sortByDesc_eq_reverse {l : List ExpenseRow} (h : ascIds l = true) :
    sortBy (fun a b => decide (b.id ≤ a.id)) l = l.reverse := by
  induction l with
  | nil => rfl
  | cons a l ih =>
    simp only [sortBy, List.reverse_cons, ih (ascIds_tail h)]
    refine insertBy_eq_append _ a l.reverse fun b hb => ?_
    exact decide_eq_false (Nat.not_le.mpr (ascIds_head_lt h b (List.mem_reverse.mp hb)))

theorem listAll_eq_reverse {db : DB} (h : ascIds db.rows = true) :
    listAll db = db.rows.reverse := sortByDesc_eq_reverse h

theorem mem_listAll {db : DB} {r : ExpenseRow} : r ∈ listAll db ↔ r ∈ db.rows :=
  (sortBy_perm _ _).mem_iff

theorem addExpense_accepted {s : UIState} (h : accepts s = true) :
    addExpense s =
      { db := dbInsert s, expenses := listAll (dbInsert s),
        amount := [], category := [], note := [] } := by
  simp only [accepts, Bool.and_eq_true, Bool.not_eq_true'] at h
  obtain ⟨⟨h1, h2⟩, h3⟩ := h
  simp [addExpense, h1, h2, h3, loadExpenses, dbInsert, newRow]

theorem addExpense_rejected {s : UIState} (h : accepts s = false) :
    addExpense s = s := by
  unfold addExpense
  by_cases h1 : (parseFloat s.amount).isNaN = true
  · simp [h1]
  by_cases h2 : jsLe (parseFloat s.amount) (JSNum.num 0) = true
  · simp [h2]
  rw [Bool.not_eq_true] at h1 h2
  cases h3 : (jsTrim s.category).isEmpty with
  | true => simp [h1, h2, h3]
  | false =>
    exfalso
    simp only [accepts, h1, h2, h3] at h
    simp at h

theorem accepts_eq_false {s : UIState}
    (h : (parseFloat s.amount).isNaN = true ∨
      jsLe (parseFloat s.amount) (JSNum.num 0) = true ∨ jsTrim s.category = []) :
    accepts s = false := by
  rcases h with h | h | h <;>
    simp [accepts, h, List.isEmpty_iff]

theorem newRow_note_ne {s : UIState} : (newRow s).note ≠ some [] := by
  simp only [newRow]
  cases hne : (jsTrim s.note).isEmpty with
  | true => simp [hne]
  | false =>
    simp only [hne, Bool.false_eq_true, if_false, ne_eq, Option.some.injEq]
    intro hx
    rw [hx] at hne
    simp at hne

theorem inv_dbInsert {s : UIState} (h : Inv s.db) : Inv (dbInsert s) := by
  obtain ⟨ha, hb, hc⟩ := h
  refine ⟨ascIds_append ha fun x hx => hb x hx, ?_, ?_⟩
  · intro r hr
    rcases List.mem_append.mp hr with hr' | hr'
    · exact lt_trans (hb r hr') (Nat.lt_succ_self _)
    · rcases List.mem_singleton.mp hr' with rfl
      exact Nat.lt_succ_self _
  · intro r hr
    rcases List.mem_append.mp hr with hr' | hr'
    · exact hc r hr'
    · rcases List.mem_singleton.mp hr' with rfl
      exact newRow_note_ne

theorem ascIds_filter {l : List ExpenseRow} (p : ExpenseRow → Bool)
    (h : ascIds l = true) : ascIds (l.filter p) = true := by
  induction l with
  | nil => rfl
  | cons a l ih =>
    rw [List.filter_cons]
    by_cases hp : p a = true
    · rw [if_pos hp]
      exact ascIds_cons (ih (ascIds_tail h))
        fun x hx => ascIds_head_lt h x (List.mem_filter.mp hx).1
    · rw [if_neg hp]
      exact ih (ascIds_tail h)

theorem inv_deleteExpense {s : UIState} (i : ℕ) (h : Inv s.db) :
    Inv (deleteExpense s i).db := by
  obtain ⟨ha, hb, hc⟩ := h
  exact ⟨ascIds_filter _ ha,
    fun r hr => hb r (List.mem_filter.mp hr).1,
    fun r hr => hc r (List.mem_filter.mp hr).1⟩

theorem inv_initUI {d : DB} (h : Inv d) : Inv (initUI d).db := by
  unfold initUI setup loadExpenses
  by_cases hd : d.hasTable = true
  · simpa [hd] using h
  · simp [hd, Inv, ascIds]

theorem applyAction_inv {s : UIState} {a : Action} (h : Inv s.db) :
    Inv (applyAction s a).db ∧ s.db.nextId ≤ (applyAction s a).db.nextId := by
  cases a with
  | typeAmount t => exact ⟨h, le_refl _⟩
  | typeCategory t => exact ⟨h, le_refl _⟩
  | typeNote t => exact ⟨h, le_refl _⟩
  | pressAdd =>
    by_cases hacc : accepts s = true
    · rw [show applyAction s .pressAdd = addExpense s from rfl, addExpense_accepted hacc]
      exact ⟨inv_dbInsert h, Nat.le_succ _⟩
    · rw [Bool.not_eq_true] at hacc
      rw [show applyAction s .pressAdd = addExpense s from rfl, addExpense_rejected hacc]
      exact ⟨h, le_refl _⟩
  | pressDelete i => exact ⟨inv_deleteExpense i h, le_refl _⟩

theorem newIds_lt {s : UIState} {a : Action} {i : ℕ} (hi : i ∈ newIds s a) :
    i < (applyAction s a).db.nextId := by
  cases a with
  | typeAmount t => cases hi
  | typeCategory t => cases hi
  | typeNote t => cases hi
  | pressDelete j => cases hi
  | pressAdd =>
    simp only [newIds] at hi
    by_cases hacc : accepts s = true
    · rw [if_pos hacc] at hi
      rcases List.mem_singleton.mp hi with rfl
      rw [show applyAction s .pressAdd = addExpense s from rfl, addExpense_accepted hacc]
      exact Nat.lt_succ_self _
    · rw [if_neg hacc] at hi
      cases hi

theorem runFrom_inv (acts : List Action) :
    ∀ s : UIState, Inv s.db →
      Inv (runFrom s acts).db ∧ s.db.nextId ≤ (runFrom s acts).db.nextId ∧
        ∀ i ∈ assignedFrom s acts, i < (runFrom s acts).db.nextId := by
  induction acts with
  | nil =>
    intro s h
    exact ⟨h, le_refl _, fun i hi => absurd hi (by simp [assignedFrom])⟩
  | cons a rest ih =>
    intro s h
    obtain ⟨h1, h2⟩ := applyAction_inv (a := a) h
    obtain ⟨ih1, ih2, ih3⟩ := ih (applyAction s a) h1
    refine ⟨ih1, le_trans h2 ih2, ?_⟩
    intro i hi
    simp only [assignedFrom] at hi
    rcases List.mem_append.mp hi with hi' | hi'
    · exact lt_of_lt_of_le (newIds_lt hi') ih2
    · exact ih3 i hi'

theorem listAll_addExpense {s : UIState} (hinv : Inv s.db) (hacc : accepts s = true) :
    listAll (addExpense s).db = newRow s :: listAll s.db := by
  have hdb : (addExpense s).db = dbInsert s := by rw [addExpense_accepted hacc]
  rw [hdb, listAll_eq_reverse (inv_dbInsert hinv).1, listAll_eq_reverse hinv.1]
  show (s.db.rows ++ [newRow s]).reverse = newRow s :: s.db.rows.reverse
  simp

/-- C1: in any session (any persisted well-formed database, any sequence of
user interactions), an add with valid inputs makes `listAll` return exactly
one new record, carrying the parsed amount and the trimmed category and
note, in front of the unchanged previous records; its id is strictly greater
than the id of every record in the previous `listAll`, of every record
present at session start, and of every id assigned during the session,
including ids of records deleted meanwhile, so ids are monotonic and never
reused. -/
theorem add_inserts_fresh_record (d : DB) (acts : List Action) (hd : Inv d)
    (hacc : accepts (runFrom (initUI d) acts) = true) :
    listAll (addExpense (runFrom (initUI d) acts)).db
        = newRow (runFrom (initUI d) acts) :: listAll (runFrom (initUI d) acts).db
      ∧ (∀ r ∈ listAll (runFrom (initUI d) acts).db,
          r.id < (newRow (runFrom (initUI d) acts)).id)
      ∧ (∀ r ∈ (initUI d).db.rows, r.id < (newRow (runFrom (initUI d) acts)).id)
      ∧ ∀ i ∈ assignedFrom (initUI d) acts,
          i < (newRow (runFrom (initUI d) acts)).id := by
  have hinv0 := inv_initUI hd
  obtain ⟨hinv, hle, hassigned⟩ := runFrom_inv acts (initUI d) hinv0
  refine ⟨listAll_addExpense hinv hacc, ?_, ?_, ?_⟩
  · intro r hr
    exact hinv.2.1 r (mem_listAll.mp hr)
  · intro r hr
    exact lt_of_lt_of_le (hinv0.2.1 r hr) hle
  · intro i hi
    exact hassigned i hi

unseal Rat.add Rat.mul Rat.inv Rat.sub in
theorem add_inserts_fresh_record_witness :
    listAll (addExpense (runFrom (initUI exDB) wActs)).db
        = newRow (runFrom (initUI exDB) wActs) :: listAll (runFrom (initUI exDB) wActs).db
      ∧ (∀ r ∈ listAll (runFrom (initUI exDB) wActs).db,
          r.id < (newRow (runFrom (initUI exDB) wActs)).id)
      ∧ (∀ r ∈ (initUI exDB).db.rows, r.id < (newRow (runFrom (initUI exDB) wActs)).id)
      ∧ ∀ i ∈ assignedFrom (initUI exDB) wActs,
          i < (newRow (runFrom (initUI exDB) wActs)).id :=
  add_inserts_fresh_record exDB wActs (by decide) (by decide)

/-- C2 (amended): an add whose amount parses to NaN or to a value the
JavaScript comparison deems less than or equal to 0, or whose category trims
to the empty string, is a complete no-op: the whole screen state, and in
particular the record collection `listAll` returns, is unchanged.  (A
non-finite positive parse such as "Infinity" is accepted, see the
counterexample.) -/
theorem invalid_add_noop (s : UIState)
    (h : (parseFloat s.amount).isNaN = true ∨
      jsLe (parseFloat s.amount) (JSNum.num 0) = true ∨ jsTrim s.category = []) :
    addExpense s = s ∧ listAll (addExpense s).db = listAll s.db := by
  have hx := addExpense_rejected (accepts_eq_false h)
  exact ⟨hx, by rw [hx]⟩

unseal Rat.add Rat.mul Rat.inv Rat.sub in
theorem invalid_add_noop_witness :
    addExpense wC2 = wC2 ∧ listAll (addExpense wC2).db = listAll wC2.db :=
  invalid_add_noop wC2 (Or.inr (Or.inl (by decide)))

/-- C2 counterexample: the amount input "Infinity" parses to a value that is
not a finite number greater than zero, yet `addExpense` persists a record
with amount Infinity, so the record collection changes. -/
theorem add_infinity_accepted_cex :
    (parseFloat (str ("Infinity"))).isNum = false
      ∧ jsLe (parseFloat (str ("Infinity"))) (JSNum.num 0) = false
      ∧ listAll (addExpense cexC2).db ≠ listAll cexC2.db
      ∧ (addExpense cexC2).db.rows
          = [{ id := 1, amount := JSNum.posInf, category := str ("Food"), note := none }] := by
  decide

/-- C3: `deleteExpense i` removes at most the record with id `i`: afterwards
`listAll` contains no record with that id, only records that were already
present, every record with a different id is still present, and when no
record has id `i` the collection is entirely unchanged. -/
theorem delete_removes_only_matching (s : UIState) (i : ℕ) :
    (∀ r ∈ listAll (deleteExpense s i).db, r.id ≠ i)
      ∧ (∀ r ∈ listAll (deleteExpense s i).db, r ∈ listAll s.db)
      ∧ (∀ r ∈ listAll s.db, r.id ≠ i → r ∈ listAll (deleteExpense s i).db)
      ∧ ((∀ r ∈ listAll s.db, r.id ≠ i) → listAll (deleteExpense s i).db = listAll s.db) := by
  have hdb : (deleteExpense s i).db.rows = s.db.rows.filter (fun r => decide (r.id ≠ i)) := rfl
  refine ⟨?_, ?_, ?_, ?_⟩
  · intro r hr
    have hm := mem_listAll.mp hr
    rw [hdb] at hm
    exact of_decide_eq_true (List.mem_filter.mp hm).2
  · intro r hr
    have hm := mem_listAll.mp hr
    rw [hdb] at hm
    exact mem_listAll.mpr (List.mem_filter.mp hm).1
  · intro r hr hne
    refine mem_listAll.mpr ?_
    rw [hdb]
    exact List.mem_filter.mpr ⟨mem_listAll.mp hr, decide_eq_true hne⟩
  · intro hall
    have hself : s.db.rows.filter (fun r => decide (r.id ≠ i)) = s.db.rows :=
      List.filter_eq_self.mpr fun r hr => decide_eq_true (hall r (mem_listAll.mpr hr))
    show listAll { s.db with rows := s.db.rows.filter (fun r => decide (r.id ≠ i)) }
      = listAll s.db
    rw [hself]

unseal Rat.add Rat.mul Rat.inv Rat.sub in
theorem delete_removes_only_matching_witness :
    listAll (deleteExpense exS2 99).db = listAll exS2.db :=
  (delete_removes_only_matching exS2 99).2.2.2 (by decide)

/-- C4: over a well-formed database, `listAll` returns the records in
strictly descending id order, returns the empty sequence when no records
exist, and `loadExpenses` leaves the persisted collection untouched. -/
theorem listAll_desc_pure (s : UIState) (h : Inv s.db) :
    descIds (listAll s.db) = true
      ∧ (s.db.rows = [] → listAll s.db = [])
      ∧ (loadExpenses s).db = s.db := by
  refine ⟨?_, ?_, rfl⟩
  · rw [listAll_eq_reverse h.1]
    exact descIds_reverse h.1
  · intro h0
    unfold listAll
    rw [h0]
    rfl

unseal Rat.add Rat.mul Rat.inv Rat.sub in
theorem listAll_desc_pure_witness :
    descIds (listAll exS2.db) = true
      ∧ (exS2.db.rows = [] → listAll exS2.db = [])
      ∧ (loadExpenses exS2).db = exS2.db :=
  listAll_desc_pure exS2 (by decide)

/-- C7: a successful add persists, in front of the unchanged collection,
exactly one record whose category is the trimmed category input and whose
note is absent exactly when the trimmed note input is empty, and is the
trimmed note otherwise; no stored note, in this record or any other, is the
empty string. -/
theorem add_trims_and_null_note (s : UIState) (hinv : Inv s.db)
    (hacc : accepts s = true) :
    listAll (addExpense s).db = newRow s :: listAll s.db
      ∧ (newRow s).category = jsTrim s.category
      ∧ ((newRow s).note = none ↔ jsTrim s.note = [])
      ∧ (∀ t, (newRow s).note = some t → t = jsTrim s.note ∧ t ≠ [])
      ∧ ∀ r ∈ (addExpense s).db.rows, r.note ≠ some [] := by
  refine ⟨listAll_addExpense hinv hacc, rfl, ?_, ?_, ?_⟩
  · simp only [newRow]
    by_cases hE : (jsTrim s.note).isEmpty = true
    · simp [hE, List.isEmpty_iff.mp hE]
    · rw [Bool.not_eq_true] at hE
      simp only [hE, Bool.false_eq_true, if_false]
      constructor
      · intro hx
        cases hx
      · intro hx
        rw [hx] at hE
        simp at hE
  · intro t
    simp only [newRow]
    by_cases hE : (jsTrim s.note).isEmpty = true
    · simp [hE]
    · rw [Bool.not_eq_true] at hE
      simp only [hE, Bool.false_eq_true, if_false, Option.some.injEq]
      intro hx
      refine ⟨hx.symm, ?_⟩
      intro hnil
      rw [hx, hnil] at hE
      simp at hE
  · intro r hr
    have hdb : (addExpense s).db = dbInsert s := by rw [addExpense_accepted hacc]
    rw [hdb] at hr
    rcases List.mem_append.mp hr with hr' | hr'
    · exact hinv.2.2 r hr'
    · rcases List.mem_singleton.mp hr' with rfl
      exact newRow_note_ne

unseal Rat.add Rat.mul Rat.inv Rat.sub in
theorem add_trims_and_null_note_witness :
    listAll (addExpense wAdd).db = newRow wAdd :: listAll wAdd.db
      ∧ (newRow wAdd).category = jsTrim wAdd.category
      ∧ ((newRow wAdd).note = none ↔ jsTrim wAdd.note = [])
      ∧ (∀ t, (newRow wAdd).note = some t → t = jsTrim wAdd.note ∧ t ≠ [])
      ∧ ∀ r ∈ (addExpense wAdd).db.rows, r.note ≠ some [] :=
  add_trims_and_null_note wAdd (by decide) (by decide)

/-- C8: the `setup` effect is idempotent: it always leaves the schema
present, running it twice equals running it once, it never alters the
database of a store whose schema already exists, and a repeated run never
changes what `listAll` returns. -/
theorem setup_idempotent (s : UIState) :
    (setup s).db.hasTable = true
      ∧ setup (setup s) = setup s
      ∧ (s.db.hasTable = true → (setup s).db = s.db)
      ∧ listAll (setup (setup s)).db = listAll (setup s).db := by
  by_cases hd : s.db.hasTable = true
  · simp [setup, loadExpenses, hd]
  · rw [Bool.not_eq_true] at hd
    simp [setup, loadExpenses, hd]

theorem setup_idempotent_witness :
    (setup exS2).db = exS2.db :=
  (setup_idempotent exS2).2.2.1 (by decide)

/-- C9: a rejected add returns before touching any state, so the three form
fields `amount`, `category` and `note` after the rejected add equal their
values before it. -/
theorem rejected_add_preserves_form (s : UIState)
    (h : (parseFloat s.amount).isNaN = true ∨
      jsLe (parseFloat s.amount) (JSNum.num 0) = true ∨ jsTrim s.category = []) :
    (addExpense s).amount = s.amount ∧ (addExpense s).category = s.category
      ∧ (addExpense s).note = s.note := by
  rw [addExpense_rejected (accepts_eq_false h)]
  exact ⟨rfl, rfl, rfl⟩

theorem rejected_add_preserves_form_witness :
    (addExpense wC9).amount = wC9.amount ∧ (addExpense wC9).category = wC9.category
      ∧ (addExpense wC9).note = wC9.note :=
  rejected_add_preserves_form wC9 (Or.inl (by decide))

/-- C10: a successful add resets the three form fields to the empty string,
and the final state is the reload applied to the state whose fields were
already cleared, so the clearing happens before the list is reloaded. -/
theorem accepted_add_clears_form (s : UIState) (hacc : accepts s = true) :
    (addExpense s).amount = [] ∧ (addExpense s).category = []
      ∧ (addExpense s).note = []
      ∧ addExpense s
          = loadExpenses
              { s with db := (addExpense s).db, amount := [], category := [], note := [] } := by
  rw [addExpense_accepted hacc]
  exact ⟨rfl, rfl, rfl, rfl⟩

theorem lookupStr_mem {t : List (Str × TVal)} {c : Str} {v : TVal}
    (h : lookupStr t c = some v) : (c, v) ∈ t := by
  induction t with
  | nil => cases h
  | cons p t ih =>
    simp only [lookupStr] at h
    by_cases hp : p.1 = c
    · rw [if_pos hp] at h
      have hv : p.2 = v := Option.some.inj h
      have hcp : (c, v) = p := by rw [← hp, ← hv]
      rw [hcp]
      exact List.mem_cons_self p t
    · rw [if_neg hp] at h
      exact List.mem_cons_of_mem p (ih h)

theorem lookupStr_none_iff {t : List (Str × TVal)} {c : Str} :
    lookupStr t c = none ↔ c ∉ keysOf t := by
  induction t with
  | nil =>
    constructor
    · intro _ hm
      cases hm
    · intro _
      rfl
  | cons p t ih =>
    by_cases hp : p.1 = c
    · constructor
      · intro h
        simp only [lookupStr, if_pos hp] at h
        cases h
      · intro h
        exfalso
        refine h ?_
        rw [← hp]
        exact List.mem_map_of_mem Prod.fst (List.mem_cons_self p t)
    · constructor
      · intro h hm
        simp only [lookupStr, if_neg hp] at h
        rcases List.mem_cons.mp hm with hm' | hm'
        · exact hp hm'.symm
        · exact ih.mp h hm'
      · intro h
        simp only [lookupStr, if_neg hp]
        exact ih.mpr fun hm => h (List.mem_cons_of_mem _ hm)

theorem lookupStr_isSome_of_mem {t : List (Str × TVal)} {c : Str}
    (h : c ∈ keysOf t) : ∃ v, lookupStr t c = some v := by
  cases hv : lookupStr t c with
  | some v => exact ⟨v, rfl⟩
  | none => exact absurd h (lookupStr_none_iff.mp hv)

theorem mem_lookupStr {t : List (Str × TVal)} {c : Str} {v : TVal}
    (hnd : (keysOf t).Nodup) (h : (c, v) ∈ t) : lookupStr t c = some v := by
  induction t with
  | nil => cases h
  | cons p t ih =>
    rcases List.mem_cons.mp h with rfl | h'
    · simp [lookupStr]
    · simp only [keysOf, List.map_cons, List.nodup_cons] at hnd
      have hne : p.1 ≠ c := by
        intro hx
        exact hnd.1 (hx ▸ List.mem_map_of_mem Prod.fst h')
      simp only [lookupStr, if_neg hne]
      exact ih hnd.2 h'

theorem keysOf_map_replace (t : List (Str × TVal)) (c : Str) (f : TVal → TVal) :
    keysOf (t.map fun p => if p.1 = c then (p.1, f p.2) else p) = keysOf t := by
  induction t with
  | nil => rfl
  | cons p t ih =>
    simp only [keysOf, List.map_cons] at ih ⊢
    by_cases hp : p.1 = c
    · rw [if_pos hp, ih]
    · rw [if_neg hp, ih]

theorem map_replace_id {t : List (Str × TVal)} {c : Str} (f : TVal → TVal)
    (h : ∀ p ∈ t, p.1 ≠ c) :
    (t.map fun p => if p.1 = c then (p.1, f p.2) else p) = t := by
  induction t with
  | nil => rfl
  | cons p t ih =>
    simp only [List.map_cons, if_neg (h p (List.mem_cons_self p t))]
    rw [ih fun q hq => h q (List.mem_cons_of_mem p hq)]

theorem keysOf_append (t u : List (Str × TVal)) :
    keysOf (t ++ u) = keysOf t ++ keysOf u := List.map_append _ t u

theorem keysOf_jsAddEntry {t : List (Str × TVal)} {c : Str} (a : JSNum)
    (hbad : badKey c = false) :
    keysOf (jsAddEntry t c a)
      = if c ∈ keysOf t then keysOf t else keysOf t ++ [c] := by
  simp only [badKey, Bool.or_eq_false_iff, decide_eq_false_iff_not] at hbad
  unfold jsAddEntry
  cases hv : lookupStr t c with
  | some v =>
    show keysOf (t.map fun p => if p.1 = c then (p.1, tAdd p.2 a) else p) = _
    rw [keysOf_map_replace t c (fun x => tAdd x a), if_pos]
    exact List.mem_map_of_mem Prod.fst (lookupStr_mem hv)
  | none =>
    show keysOf (if c = str ("__proto__") then t else if c ∈ protoKeys then
      t ++ [(c, TVal.s)] else t ++ [(c, TVal.n (JSNum.add (JSNum.num 0) a))]) = _
    rw [if_neg hbad.1, if_neg hbad.2, keysOf_append,
      if_neg (lookupStr_none_iff.mp hv)]
    rfl

theorem lookup_map_replace_ne {t : List (Str × TVal)} {c c' : Str} (g : TVal → TVal)
    (h : c' ≠ c) :
    lookupStr (t.map fun p => if p.1 = c then (p.1, g p.2) else p) c' = lookupStr t c' := by
  induction t with
  | nil => rfl
  | cons p t ih =>
    simp only [List.map_cons]
    by_cases hp : p.1 = c
    · have hne : ¬ p.1 = c' := by
        rw [hp]
        exact fun hx => h hx.symm
      rw [if_pos hp]
      simp only [lookupStr, if_neg hne]
      exact ih
    · rw [if_neg hp]
      simp only [lookupStr]
      by_cases hpc : p.1 = c'
      · rw [if_pos hpc, if_pos hpc]
      · rw [if_neg hpc, if_neg hpc]
        exact ih

theorem lookup_map_replace_self {t : List (Str × TVal)} {c : Str} (g : TVal → TVal)
    {v : TVal} (hv : lookupStr t c = some v) :
    lookupStr (t.map fun p => if p.1 = c then (p.1, g p.2) else p) c = some (g v) := by
  induction t with
  | nil => cases hv
  | cons p t ih =>
    simp only [lookupStr] at hv
    simp only [List.map_cons]
    by_cases hp : p.1 = c
    · rw [if_pos hp] at hv
      rw [if_pos hp]
      simp [lookupStr, hp, Option.some.inj hv]
    · rw [if_neg hp] at hv
      rw [if_neg hp]
      simp only [lookupStr, if_neg hp]
      exact ih hv

theorem lookup_append_single_ne {t : List (Str × TVal)} {c c' : Str} (v : TVal)
    (h : c' ≠ c) : lookupStr (t ++ [(c, v)]) c' = lookupStr t c' := by
  induction t with
  | nil =>
    simp only [List.nil_append, lookupStr]
    rw [if_neg fun hx => h hx.symm]
  | cons p t ih =>
    simp only [List.cons_append, lookupStr]
    by_cases hp : p.1 = c'
    · rw [if_pos hp, if_pos hp]
    · rw [if_neg hp, if_neg hp]
      exact ih

theorem lookup_append_single_self {t : List (Str × TVal)} {c : Str} (v : TVal)
    (hv : lookupStr t c = none) : lookupStr (t ++ [(c, v)]) c = some v := by
  induction t with
  | nil => simp [lookupStr]
  | cons p t ih =>
    simp only [lookupStr] at hv
    by_cases hp : p.1 = c
    · rw [if_pos hp] at hv
      cases hv
    · rw [if_neg hp] at hv
      simp only [List.cons_append, lookupStr, if_neg hp]
      exact ih hv

theorem lookup_jsAddEntry_ne {t : List (Str × TVal)} {c c' : Str} (a : JSNum)
    (h : c' ≠ c) : lookupStr (jsAddEntry t c a) c' = lookupStr t c' := by
  unfold jsAddEntry
  cases hv : lookupStr t c with
  | some v =>
    show lookupStr (t.map fun p => if p.1 = c then (p.1, tAdd p.2 a) else p) c' = _
    exact lookup_map_replace_ne (fun x => tAdd x a) h
  | none =>
    show lookupStr (if c = str ("__proto__") then t else if c ∈ protoKeys then
      t ++ [(c, TVal.s)] else t ++ [(c, TVal.n (JSNum.add (JSNum.num 0) a))]) c' = _
    by_cases h1 : c = str ("__proto__")
    · rw [if_pos h1]
    · rw [if_neg h1]
      by_cases h2 : c ∈ protoKeys
      · rw [if_pos h2]
        exact lookup_append_single_ne _ h
      · rw [if_neg h2]
        exact lookup_append_single_ne _ h

theorem lookup_jsAddEntry_self {t : List (Str × TVal)} {c : Str} {a : JSNum}
    (hbad : badKey c = false) :
    lookupStr (jsAddEntry t c a) c
      = some (match lookupStr t c with
          | some v => tAdd v a
          | none => TVal.n (JSNum.add (JSNum.num 0) a)) := by
  simp only [badKey, Bool.or_eq_false_iff, decide_eq_false_iff_not] at hbad
  unfold jsAddEntry
  cases hv : lookupStr t c with
  | some v =>
    show lookupStr (t.map fun p => if p.1 = c then (p.1, tAdd p.2 a) else p) c
      = some (tAdd v a)
    exact lookup_map_replace_self (fun x => tAdd x a) hv
  | none =>
    show lookupStr (if c = str ("__proto__") then t else if c ∈ protoKeys then
        t ++ [(c, TVal.s)] else t ++ [(c, TVal.n (JSNum.add (JSNum.num 0) a))]) c
      = some (TVal.n (JSNum.add (JSNum.num 0) a))
    rw [if_neg hbad.1, if_neg hbad.2]
    exact lookup_append_single_self _ hv

theorem tAdd_num (u q : ℚ) :
    tAdd (TVal.n (JSNum.num u)) (JSNum.num q) = TVal.n (JSNum.num (u + q)) := by
  by_cases hu : u = 0
  · simp [tAdd, JSNum.falsy, JSNum.add, hu]
  · simp [tAdd, JSNum.falsy, JSNum.add, hu]

theorem reset_amount {v : JSNum} (h : v.isNum = true) :
    (if v.falsy then JSNum.num 0 else v) = v := by
  cases v with
  | num q =>
    by_cases hq : q = 0
    · simp [JSNum.falsy, hq]
    · simp [JSNum.falsy, hq]
  | nan => simp [JSNum.isNum] at h
  | posInf => simp [JSNum.isNum] at h
  | negInf => simp [JSNum.isNum] at h

theorem accumulate_def (t : List (Str × TVal)) (r : ExpenseRow) :
    accumulate t r
      = jsAddEntry t (effCat r) (if (r.amount).falsy then JSNum.num 0 else r.amount) := rfl

theorem accumulate_eq {t : List (Str × TVal)} {r : ExpenseRow}
    (h : (r.amount).isNum = true) :
    accumulate t r = jsAddEntry t (effCat r) r.amount := by
  rw [accumulate_def, reset_amount h]

theorem tAdd_fin {v : TVal} (q : ℚ) (h : TVal.isFin v = true) :
    TVal.isFin (tAdd v (JSNum.num q)) = true := by
  cases v with
  | s => simp [TVal.isFin] at h
  | n w =>
    cases w with
    | num u => rw [tAdd_num]; rfl
    | nan => simp [TVal.isFin] at h
    | posInf => simp [TVal.isFin] at h
    | negInf => simp [TVal.isFin] at h

theorem toQ_tAdd {v : TVal} {q : ℚ} (h : TVal.isFin v = true) :
    TVal.toQ (tAdd v (JSNum.num q)) = TVal.toQ v + q := by
  cases v with
  | s => simp [TVal.isFin] at h
  | n w =>
    cases w with
    | num u => rw [tAdd_num]; rfl
    | nan => simp [TVal.isFin] at h
    | posInf => simp [TVal.isFin] at h
    | negInf => simp [TVal.isFin] at h

theorem allFin_jsAddEntry {t : List (Str × TVal)} {c : Str} {q : ℚ}
    (ht : AllFin t) (hbad : badKey c = false) :
    AllFin (jsAddEntry t c (JSNum.num q)) := by
  have hbad' := hbad
  simp only [badKey, Bool.or_eq_false_iff, decide_eq_false_iff_not] at hbad'
  unfold jsAddEntry
  cases hv : lookupStr t c with
  | some v =>
    show AllFin (t.map fun p => if p.1 = c then (p.1, tAdd p.2 (JSNum.num q)) else p)
    intro p hp
    rcases List.mem_map.mp hp with ⟨p0, hp0, rfl⟩
    by_cases hc : p0.1 = c
    · rw [if_pos hc]
      exact tAdd_fin q (ht p0 hp0)
    · rw [if_neg hc]
      exact ht p0 hp0
  | none =>
    show AllFin (if c = str ("__proto__") then t else if c ∈ protoKeys then
      t ++ [(c, TVal.s)] else t ++ [(c, TVal.n (JSNum.add (JSNum.num 0) (JSNum.num q)))])
    rw [if_neg hbad'.1, if_neg hbad'.2]
    intro p hp
    rcases List.mem_append.mp hp with hp' | hp'
    · exact ht p hp'
    · rcases List.mem_singleton.mp hp' with rfl
      rfl

theorem allFin_accumulate {t : List (Str × TVal)} {r : ExpenseRow}
    (ht : AllFin t) (hfin : (r.amount).isNum = true) (hbad : badKey (effCat r) = false) :
    AllFin (accumulate t r) := by
  rw [accumulate_eq hfin]
  cases hx : r.amount with
  | num q => exact allFin_jsAddEntry ht hbad
  | nan => rw [hx] at hfin; simp [JSNum.isNum] at hfin
  | posInf => rw [hx] at hfin; simp [JSNum.isNum] at hfin
  | negInf => rw [hx] at hfin; simp [JSNum.isNum] at hfin

theorem nodup_keys_jsAddEntry {t : List (Str × TVal)} {c : Str} (a : JSNum)
    (hnd : (keysOf t).Nodup) (hbad : badKey c = false) :
    (keysOf (jsAddEntry t c a)).Nodup := by
  rw [keysOf_jsAddEntry a hbad]
  by_cases hm : c ∈ keysOf t
  · rw [if_pos hm]
    exact hnd
  · rw [if_neg hm]
    rw [List.nodup_append]
    refine ⟨hnd, List.nodup_singleton c, ?_⟩
    intro x hx hx'
    rcases List.mem_singleton.mp hx' with rfl
    exact hm hx

theorem nodup_keys_foldl {rs : List ExpenseRow} :
    ∀ t : List (Str × TVal), (keysOf t).Nodup →
      (∀ r ∈ rs, badKey (effCat r) = false) →
      (keysOf (rs.foldl accumulate t)).Nodup := by
  induction rs with
  | nil => intro t h _; exact h
  | cons r rs ih =>
    intro t h hbad
    simp only [List.foldl_cons]
    refine ih _ ?_ fun x hx => hbad x (List.mem_cons_of_mem _ hx)
    rw [accumulate_def]
    exact nodup_keys_jsAddEntry _ h (hbad r (List.mem_cons_self r rs))

theorem allFin_foldl {rs : List ExpenseRow} :
    ∀ t : List (Str × TVal), AllFin t →
      (∀ r ∈ rs, (r.amount).isNum = true) →
      (∀ r ∈ rs, badKey (effCat r) = false) →
      AllFin (rs.foldl accumulate t) := by
  induction rs with
  | nil => intro t h _ _; exact h
  | cons r rs ih =>
    intro t h hfin hbad
    simp only [List.foldl_cons]
    exact ih _
      (allFin_accumulate h (hfin r (List.mem_cons_self r rs))
        (hbad r (List.mem_cons_self r rs)))
      (fun x hx => hfin x (List.mem_cons_of_mem _ hx))
      (fun x hx => hbad x (List.mem_cons_of_mem _ hx))

theorem sumVals_append (t u : List (Str × TVal)) :
    sumVals (t ++ u) = sumVals t + sumVals u := by
  unfold sumVals
  rw [List.map_append, List.sum_append]

theorem sumVals_map_replace {t : List (Str × TVal)} {c : Str} {q : ℚ} :
    AllFin t → (keysOf t).Nodup → c ∈ keysOf t →
    sumVals (t.map fun p => if p.1 = c then (p.1, tAdd p.2 (JSNum.num q)) else p)
      = sumVals t + q := by
  induction t with
  | nil => intro _ _ hm; cases hm
  | cons p t ih =>
    intro ht hnd hm
    simp only [keysOf, List.map_cons, List.nodup_cons] at hnd
    simp only [List.map_cons]
    by_cases hp : p.1 = c
    · rw [if_pos hp]
      have hrest : (t.map fun p => if p.1 = c then (p.1, tAdd p.2 (JSNum.num q)) else p) = t := by
        refine map_replace_id (fun x => tAdd x (JSNum.num q)) fun p' hp' hceq => ?_
        exact hnd.1 (by rw [← hp] at hceq; rw [← hceq]; exact List.mem_map_of_mem Prod.fst hp')
      rw [hrest]
      simp only [sumVals, List.map_cons, List.sum_cons]
      rw [toQ_tAdd (ht p (List.mem_cons_self p t))]
      ring
    · rw [if_neg hp]
      have hm' : c ∈ keysOf t := by
        rcases List.mem_cons.mp hm with hm' | hm'
        · exact absurd hm'.symm hp
        · exact hm'
      simp only [sumVals, List.map_cons, List.sum_cons]
      have := ih (fun x hx => ht x (List.mem_cons_of_mem p hx)) hnd.2 hm'
      simp only [sumVals] at this
      rw [this]
      ring

theorem sumVals_jsAddEntry {t : List (Str × TVal)} {c : Str} {q : ℚ}
    (ht : AllFin t) (hnd : (keysOf t).Nodup) (hbad : badKey c = false) :
    sumVals (jsAddEntry t c (JSNum.num q)) = sumVals t + q := by
  have hbad' := hbad
  simp only [badKey, Bool.or_eq_false_iff, decide_eq_false_iff_not] at hbad'
  unfold jsAddEntry
  cases hv : lookupStr t c with
  | some v =>
    show sumVals (t.map fun p => if p.1 = c then (p.1, tAdd p.2 (JSNum.num q)) else p) = _
    exact sumVals_map_replace ht hnd (List.mem_map_of_mem Prod.fst (lookupStr_mem hv))
  | none =>
    show sumVals (if c = str ("__proto__") then t else if c ∈ protoKeys then
      t ++ [(c, TVal.s)] else t ++ [(c, TVal.n (JSNum.add (JSNum.num 0) (JSNum.num q)))]) = _
    rw [if_neg hbad'.1, if_neg hbad'.2, sumVals_append]
    simp [sumVals, TVal.toQ, JSNum.toQ, JSNum.add]

theorem sumVals_foldl {rs : List ExpenseRow} :
    ∀ t : List (Str × TVal), AllFin t → (keysOf t).Nodup →
      (∀ r ∈ rs, (r.amount).isNum = true) →
      (∀ r ∈ rs, badKey (effCat r) = false) →
      sumVals (rs.foldl accumulate t)
        = sumVals t + (rs.map fun r => (r.amount).toQ).sum := by
  induction rs with
  | nil => intro t _ _ _ _; simp
  | cons r rs ih =>
    intro t ht hnd hfin hbad
    have hf := hfin r (List.mem_cons_self r rs)
    have hb := hbad r (List.mem_cons_self r rs)
    simp only [List.foldl_cons]
    cases hx : r.amount with
    | num q =>
      have hacc : accumulate t r = jsAddEntry t (effCat r) (JSNum.num q) := by
        rw [accumulate_eq hf, hx]
      rw [hacc,
        ih _ (by rw [← hacc]; exact allFin_accumulate ht hf hb)
          (by rw [← hacc, accumulate_def]; exact nodup_keys_jsAddEntry _ hnd hb)
          (fun x hxm => hfin x (List.mem_cons_of_mem _ hxm))
          (fun x hxm => hbad x (List.mem_cons_of_mem _ hxm)),
        sumVals_jsAddEntry ht hnd hb]
      simp only [List.map_cons, List.sum_cons, hx, JSNum.toQ]
      ring
    | nan => rw [hx] at hf; simp [JSNum.isNum] at hf
    | posInf => rw [hx] at hf; simp [JSNum.isNum] at hf
    | negInf => rw [hx] at hf; simp [JSNum.isNum] at hf

theorem specSum_nil (c : Str) : specSum [] c = 0 := rfl

theorem specSum_cons_ne {r : ExpenseRow} {rs : List ExpenseRow} {c : Str}
    (h : ¬ effCat r = c) : specSum (r :: rs) c = specSum rs c := by
  unfold specSum
  rw [List.filter_cons, if_neg (by simp [h])]

theorem specSum_cons_self {r : ExpenseRow} {rs : List ExpenseRow} {c : Str}
    (h : effCat r = c) :
    specSum (r :: rs) c = (r.amount).toQ + specSum rs c := by
  unfold specSum
  rw [List.filter_cons, if_pos (by simp [h]), List.map_cons, List.sum_cons]

theorem lookup_foldl {rs : List ExpenseRow} :
    ∀ t : List (Str × TVal), ∀ c : Str, AllFin t →
      (∀ r ∈ rs, (r.amount).isNum = true) →
      (∀ r ∈ rs, badKey (effCat r) = false) →
      lookupStr (rs.foldl accumulate t) c
        = match lookupStr t c with
          | some v => some (TVal.n (JSNum.num (TVal.toQ v + specSum rs c)))
          | none =>
            if c ∈ rs.map effCat then some (TVal.n (JSNum.num (specSum rs c))) else none := by
  induction rs with
  | nil =>
    intro t c ht _ _
    cases hv : lookupStr t c with
    | some v =>
      rw [List.foldl_nil, hv]
      show some v = some (TVal.n (JSNum.num (TVal.toQ v + specSum [] c)))
      have hf := ht (c, v) (lookupStr_mem hv)
      cases v with
      | s => simp [TVal.isFin] at hf
      | n w =>
        cases w with
        | num u =>
          rw [specSum_nil]
          norm_num [TVal.toQ, JSNum.toQ]
        | nan => simp [TVal.isFin] at hf
        | posInf => simp [TVal.isFin] at hf
        | negInf => simp [TVal.isFin] at hf
    | none =>
      rw [List.foldl_nil, hv]
      show (none : Option TVal)
        = if c ∈ List.map effCat [] then some (TVal.n (JSNum.num (specSum [] c))) else none
      simp
  | cons r rs ih =>
    intro t c ht hfin hbad
    have hf := hfin r (List.mem_cons_self r rs)
    have hb := hbad r (List.mem_cons_self r rs)
    simp only [List.foldl_cons]
    cases hx : r.amount with
    | nan => rw [hx] at hf; simp [JSNum.isNum] at hf
    | posInf => rw [hx] at hf; simp [JSNum.isNum] at hf
    | negInf => rw [hx] at hf; simp [JSNum.isNum] at hf
    | num q =>
      have hacc : accumulate t r = jsAddEntry t (effCat r) (JSNum.num q) := by
        rw [accumulate_eq hf, hx]
      rw [hacc, ih _ c (allFin_jsAddEntry ht hb)
        (fun x hxm => hfin x (List.mem_cons_of_mem _ hxm))
        (fun x hxm => hbad x (List.mem_cons_of_mem _ hxm))]
      by_cases hc : c = effCat r
      · subst hc
        rw [lookup_jsAddEntry_self hb]
        cases hv : lookupStr t (effCat r) with
        | some v =>
          have hfv := ht (effCat r, v) (lookupStr_mem hv)
          cases v with
          | s => simp [TVal.isFin] at hfv
          | n w =>
            cases w with
            | num u =>
              show some (TVal.n (JSNum.num
                  (TVal.toQ (tAdd (TVal.n (JSNum.num u)) (JSNum.num q))
                    + specSum rs (effCat r))))
                = some (TVal.n (JSNum.num
                    (TVal.toQ (TVal.n (JSNum.num u)) + specSum (r :: rs) (effCat r))))
              rw [tAdd_num, specSum_cons_self rfl, hx]
              simp only [TVal.toQ, JSNum.toQ, Option.some.injEq, TVal.n.injEq,
                JSNum.num.injEq]
              ring
            | nan => simp [TVal.isFin] at hfv
            | posInf => simp [TVal.isFin] at hfv
            | negInf => simp [TVal.isFin] at hfv
        | none =>
          show some (TVal.n (JSNum.num
              (TVal.toQ (TVal.n (JSNum.add (JSNum.num 0) (JSNum.num q)))
                + specSum rs (effCat r))))
            = if effCat r ∈ List.map effCat (r :: rs) then
                some (TVal.n (JSNum.num (specSum (r :: rs) (effCat r)))) else none
          rw [if_pos (show effCat r ∈ List.map effCat (r :: rs) from by
            rw [List.map_cons]
            exact List.mem_cons_self _ _)]
          rw [specSum_cons_self rfl, hx]
          simp only [JSNum.add, TVal.toQ, JSNum.toQ, Option.some.injEq, TVal.n.injEq,
            JSNum.num.injEq]
          ring
      · rw [lookup_jsAddEntry_ne _ hc]
        cases hv : lookupStr t c with
        | some v =>
          show some (TVal.n (JSNum.num (TVal.toQ v + specSum rs c)))
            = some (TVal.n (JSNum.num (TVal.toQ v + specSum (r :: rs) c)))
          rw [specSum_cons_ne fun h => hc h.symm]
        | none =>
          show (if c ∈ List.map effCat rs then
              some (TVal.n (JSNum.num (specSum rs c))) else none)
            = if c ∈ List.map effCat (r :: rs) then
                some (TVal.n (JSNum.num (specSum (r :: rs) c))) else none
          by_cases hm : c ∈ List.map effCat rs
          · rw [if_pos hm, if_pos (show c ∈ List.map effCat (r :: rs) from by
              rw [List.map_cons]
              exact List.mem_cons_of_mem _ hm)]
            rw [specSum_cons_ne fun h => hc h.symm]
          · rw [if_neg hm, if_neg (show ¬ c ∈ List.map effCat (r :: rs) from by
              rw [List.map_cons]
              intro hx'
              rcases List.mem_cons.mp hx' with h' | h'
              · exact hc h'
              · exact hm h')]

theorem lookup_buildTotals {rs : List ExpenseRow} {c : Str}
    (hfin : ∀ r ∈ rs, (r.amount).isNum = true)
    (hbad : ∀ r ∈ rs, badKey (effCat r) = false) :
    lookupStr (rs.foldl accumulate []) c
      = if c ∈ rs.map effCat then some (TVal.n (JSNum.num (specSum rs c))) else none := by
  rw [lookup_foldl [] c (fun p hp => absurd hp (List.not_mem_nil p)) hfin hbad]
  rfl

theorem keysOf_foldl {rs : List ExpenseRow} :
    ∀ t : List (Str × TVal), (∀ r ∈ rs, badKey (effCat r) = false) →
      keysOf (rs.foldl accumulate t)
        = rs.foldl (fun acc r => if effCat r ∈ acc then acc else acc ++ [effCat r])
            (keysOf t) := by
  induction rs with
  | nil => intro t _; rfl
  | cons r rs ih =>
    intro t hbad
    simp only [List.foldl_cons]
    rw [ih _ fun x hx => hbad x (List.mem_cons_of_mem _ hx)]
    congr 1
    rw [accumulate_def, keysOf_jsAddEntry _ (hbad r (List.mem_cons_self r rs))]

theorem map_fst_filter (q : Str → Bool) (l : List (Str × TVal)) :
    (l.filter fun p => q p.1).map Prod.fst = (l.map Prod.fst).filter q := by
  induction l with
  | nil => rfl
  | cons p l ih =>
    rw [List.filter_cons, List.map_cons, List.filter_cons]
    by_cases hq : q p.1 = true
    · rw [if_pos hq, if_pos hq, List.map_cons, ih]
    · rw [if_neg hq, if_neg hq, ih]

theorem map_fst_insertBy (le : Str → Str → Bool) (a : Str × TVal)
    (l : List (Str × TVal)) :
    (insertBy (fun p q => le p.1 q.1) a l).map Prod.fst
      = insertBy le a.1 (l.map Prod.fst) := by
  induction l with
  | nil => rfl
  | cons b l ih =>
    simp only [insertBy, List.map_cons]
    by_cases h : le a.1 b.1 = true
    · rw [if_pos h, if_pos h]
      rfl
    · rw [if_neg h, if_neg h, List.map_cons, ih]

theorem map_fst_sortBy (le : Str → Str → Bool) (l : List (Str × TVal)) :
    (sortBy (fun p q => le p.1 q.1) l).map Prod.fst = sortBy le (l.map Prod.fst) := by
  induction l with
  | nil => rfl
  | cons a l ih =>
    simp only [sortBy, List.map_cons]
    rw [map_fst_insertBy, ih]

theorem keysOf_objEntries (t : List (Str × TVal)) :
    keysOf (objEntries t) = objOrder (keysOf t) := by
  unfold objEntries objOrder keysOf
  rw [List.map_append]
  congr 1
  · rw [map_fst_sortBy (fun a b => decide (digitsToNat a ≤ digitsToNat b)),
      map_fst_filter isArrayIndexStr]
  · exact map_fst_filter (fun c => !isArrayIndexStr c) t

theorem objEntries_perm (t : List (Str × TVal)) : List.Perm (objEntries t) t := by
  unfold objEntries
  refine ((sortBy_perm _ _).append (List.Perm.refl _)).trans ?_
  exact List.filter_append_perm _ t

theorem objOrder_perm (l : List Str) : List.Perm (objOrder l) l := by
  unfold objOrder
  refine ((sortBy_perm _ _).append (List.Perm.refl _)).trans ?_
  exact List.filter_append_perm _ l

theorem nodup_foldl_insert {l : List Str} :
    ∀ acc : List Str, acc.Nodup →
      (l.foldl (fun acc c => if c ∈ acc then acc else acc ++ [c]) acc).Nodup := by
  induction l with
  | nil => intro acc h; exact h
  | cons c l ih =>
    intro acc h
    simp only [List.foldl_cons]
    refine ih _ ?_
    by_cases hm : c ∈ acc
    · rw [if_pos hm]
      exact h
    · rw [if_neg hm, List.nodup_append]
      refine ⟨h, List.nodup_singleton c, ?_⟩
      intro x hx hx'
      rcases List.mem_singleton.mp hx' with rfl
      exact hm hx

theorem mem_foldl_insert {l : List Str} :
    ∀ acc c, c ∈ l.foldl (fun acc c => if c ∈ acc then acc else acc ++ [c]) acc
      ↔ c ∈ acc ∨ c ∈ l := by
  induction l with
  | nil => intro acc c; simp
  | cons b l ih =>
    intro acc c
    simp only [List.foldl_cons]
    rw [ih]
    by_cases hm : b ∈ acc
    · rw [if_pos hm]
      constructor
      · rintro (h | h)
        · exact Or.inl h
        · exact Or.inr (List.mem_cons_of_mem b h)
      · rintro (h | h)
        · exact Or.inl h
        · rcases List.mem_cons.mp h with rfl | h'
          · exact Or.inl hm
          · exact Or.inr h'
    · rw [if_neg hm]
      constructor
      · rintro (h | h)
        · rcases List.mem_append.mp h with h' | h'
          · exact Or.inl h'
          · rcases List.mem_singleton.mp h' with rfl
            exact Or.inr (List.mem_cons_self _ _)
        · exact Or.inr (List.mem_cons_of_mem b h)
      · rintro (h | h)
        · exact Or.inl (List.mem_append.mpr (Or.inl h))
        · rcases List.mem_cons.mp h with rfl | h'
          · exact Or.inl (List.mem_append.mpr (Or.inr (List.mem_singleton.mpr rfl)))
          · exact Or.inr h'

theorem firstSeen_eq_foldl (rs : List ExpenseRow) :
    firstSeen (rs.map effCat)
      = rs.foldl (fun acc r => if effCat r ∈ acc then acc else acc ++ [effCat r]) [] := by
  unfold firstSeen
  rw [List.foldl_map]

theorem nodup_firstSeen (l : List Str) : (firstSeen l).Nodup :=
  nodup_foldl_insert [] List.nodup_nil

theorem mem_firstSeen {l : List Str} {c : Str} : c ∈ firstSeen l ↔ c ∈ l := by
  unfold firstSeen
  rw [mem_foldl_insert]
  simp

theorem enum_map_snd_comp {β γ : Type _} (l : List β) (g : β → γ) :
    l.enum.map (fun p => g p.2) = l.map g := by
  rw [show (fun p : ℕ × β => g p.2) = g ∘ Prod.snd from rfl, ← List.map_map,
    List.enum_map_snd]

theorem getCategoryTotals_names (rs : List ExpenseRow) :
    (getCategoryTotals rs).map (fun d => d.name)
      = keysOf (objEntries (rs.foldl accumulate [])) := by
  unfold getCategoryTotals
  rw [List.map_map]
  exact enum_map_snd_comp _ Prod.fst

theorem getCategoryTotals_amounts (rs : List ExpenseRow) :
    (getCategoryTotals rs).map (fun d => TVal.toQ d.amount)
      = (objEntries (rs.foldl accumulate [])).map (fun p => TVal.toQ p.2) := by
  unfold getCategoryTotals
  rw [List.map_map]
  exact enum_map_snd_comp _ (fun p : Str × TVal => TVal.toQ p.2)

unseal Rat.add Rat.mul Rat.inv Rat.sub in
theorem accepted_add_clears_form_witness :
    (addExpense wAdd).amount = [] ∧ (addExpense wAdd).category = []
      ∧ (addExpense wAdd).note = []
      ∧ addExpense wAdd
          = loadExpenses
              { wAdd with db := (addExpense wAdd).db, amount := [], category := [], note := [] } :=
  accepted_add_clears_form wAdd (by decide)

/-- C5 (amended): over records whose effective category avoids the
"__proto__" key and the Object.prototype method names, `getCategoryTotals`
is a pure function that groups records by category with absent (empty)
categories falling into "Other", sums the amounts within each group exactly,
and returns one entry per distinct group; the entries appear in first-seen
order of the input, except that categories which are canonical array-index
strings come first, in ascending numeric order, which is JavaScript object
key enumeration order. -/
theorem categoryTotals_grouping (rs : List ExpenseRow)
    (hfin : ∀ r ∈ rs, (r.amount).isNum = true)
    (hbad : ∀ r ∈ rs, badKey (effCat r) = false) :
    (getCategoryTotals rs).map (fun d => d.name) = objOrder (firstSeen (rs.map effCat))
      ∧ (∀ d ∈ getCategoryTotals rs, d.amount = TVal.n (JSNum.num (specSum rs d.name)))
      ∧ ((getCategoryTotals rs).map (fun d => d.name)).Nodup
      ∧ ∀ c : Str, c ∈ (getCategoryTotals rs).map (fun d => d.name)
          ↔ c ∈ rs.map effCat := by
  have hnames : (getCategoryTotals rs).map (fun d => d.name)
      = objOrder (firstSeen (rs.map effCat)) := by
    rw [getCategoryTotals_names, keysOf_objEntries, keysOf_foldl [] hbad,
      firstSeen_eq_foldl]
    rfl
  refine ⟨hnames, ?_, ?_, ?_⟩
  · intro d hd
    unfold getCategoryTotals at hd
    rcases List.mem_map.mp hd with ⟨p, hp, rfl⟩
    have hp2 : p.2 ∈ objEntries (rs.foldl accumulate []) := by
      have hmm := List.mem_map_of_mem Prod.snd hp
      rwa [List.enum_map_snd] at hmm
    have hpT : p.2 ∈ rs.foldl accumulate [] := (objEntries_perm _).mem_iff.mp hp2
    have hnd : (keysOf (rs.foldl accumulate [])).Nodup :=
      nodup_keys_foldl [] List.nodup_nil hbad
    have hlk : lookupStr (rs.foldl accumulate []) p.2.1 = some p.2.2 :=
      mem_lookupStr hnd hpT
    rw [lookup_buildTotals hfin hbad] at hlk
    by_cases hm : p.2.1 ∈ rs.map effCat
    · rw [if_pos hm] at hlk
      exact (Option.some.inj hlk).symm
    · rw [if_neg hm] at hlk
      cases hlk
  · rw [hnames]
    exact ((objOrder_perm _).nodup_iff).mpr (nodup_firstSeen _)
  · intro c
    rw [hnames, (objOrder_perm _).mem_iff, mem_firstSeen]

unseal Rat.add Rat.mul Rat.inv Rat.sub in
theorem categoryTotals_grouping_witness :
    (getCategoryTotals rsEx).map (fun d => d.name) = objOrder (firstSeen (rsEx.map effCat))
      ∧ (∀ d ∈ getCategoryTotals rsEx, d.amount = TVal.n (JSNum.num (specSum rsEx d.name)))
      ∧ ((getCategoryTotals rsEx).map (fun d => d.name)).Nodup
      ∧ ∀ c : Str, c ∈ (getCategoryTotals rsEx).map (fun d => d.name)
          ↔ c ∈ rsEx.map effCat :=
  categoryTotals_grouping rsEx (by decide) (by decide)

unseal Rat.add Rat.mul Rat.inv Rat.sub in
/-- C5 counterexample: `getCategoryTotals` does not return groups in
first-seen order of the input, and does not always return one summed entry
per distinct group.  The array-index-like categories "2" and "1", first seen
in that order, come back as "1" then "2"; a record with category
"__proto__" produces no group at all; and the group of a record with
category "toString" carries a concatenated string, not a numeric sum. -/
theorem categoryTotals_order_cex :
    ((getCategoryTotals
        [{ id := 1, amount := JSNum.num 5, category := str ("2"), note := none },
         { id := 2, amount := JSNum.num 3, category := str ("1"), note := none }]).map
      fun d => d.name) = [str ("1"), str ("2")]
      ∧ firstSeen
          ([{ id := 1, amount := JSNum.num 5, category := str ("2"), note := none },
            { id := 2, amount := JSNum.num 3, category := str ("1"), note := none }].map
            effCat)
        = [str ("2"), str ("1")]
      ∧ getCategoryTotals
          [{ id := 1, amount := JSNum.num 5, category := str ("__proto__"), note := none }]
        = []
      ∧ ((getCategoryTotals
          [{ id := 3, amount := JSNum.num 2, category := str ("toString"), note := none }]).map
        fun d => d.amount) = [TVal.s] := by
  decide

/-- C6 (amended): over records whose effective category avoids the
"__proto__" key and the Object.prototype method names, the sum of the group
totals `getCategoryTotals` returns equals the sum of the amounts of all
input records, however the records are partitioned across categories. -/
theorem categoryTotals_grand_total (rs : List ExpenseRow)
    (hfin : ∀ r ∈ rs, (r.amount).isNum = true)
    (hbad : ∀ r ∈ rs, badKey (effCat r) = false) :
    ((getCategoryTotals rs).map fun d => TVal.toQ d.amount).sum
      = (rs.map fun r => (r.amount).toQ).sum := by
  rw [getCategoryTotals_amounts]
  rw [((objEntries_perm (rs.foldl accumulate [])).map fun p => TVal.toQ p.2).sum_eq]
  show sumVals (rs.foldl accumulate []) = _
  rw [sumVals_foldl [] (fun p hp => absurd hp (List.not_mem_nil p)) List.nodup_nil
    hfin hbad]
  simp [sumVals]

unseal Rat.add Rat.mul Rat.inv Rat.sub in
theorem categoryTotals_grand_total_witness :
    ((getCategoryTotals rsEx).map fun d => TVal.toQ d.amount).sum
      = (rsEx.map fun r => (r.amount).toQ).sum :=
  categoryTotals_grand_total rsEx (by decide) (by decide)

unseal Rat.add Rat.mul Rat.inv Rat.sub in
/-- C6 counterexample: for two records with categories "__proto__" and
"toString" and amounts 5 and 3, the pie data sums to 0 while the records sum
to 8: the "__proto__" amount is silently dropped by the inherited setter and
the "toString" total is a string, not a number. -/
theorem categoryTotals_grand_total_cex :
    ((getCategoryTotals
        [{ id := 1, amount := JSNum.num 5, category := str ("__proto__"), note := none },
         { id := 2, amount := JSNum.num 3, category := str ("toString"), note := none }]).map
      fun d => TVal.toQ d.amount).sum = 0
      ∧ (([{ id := 1, amount := JSNum.num 5, category := str ("__proto__"), note := none },
          { id := 2, amount := JSNum.num 3, category := str ("toString"), note := none }] :
            List ExpenseRow).map fun r => (r.amount).toQ).sum = 8 := by
  decide

end ExpenseTracker
